import Mathlib

/-!
Verification of the ChannelManagerArchitecture control-plane core.

This file gives a shallow embedding, in Lean 4, of the data model and the
operations of the battery-cycler channel manager (sources:
`BatteryTestingService.cpp/.h`, `ChannelService.h`, `Task.h`), and proves or
refutes the specified properties of those operations.

Modelling conventions:
* `float` measurement values are modelled as rationals (`ℚ`); only order
  comparisons and constants occur in the verified code paths.
* `std::map` is modelled as an association list with unique keys maintained by
  `mapInsert`; `std::vector` as `List`.
* `std::priority_queue<Task*, std::vector<Task*>, TaskComparator>` is modelled
  as the standard array-backed binary heap: `push_heap` appends and sifts the
  new element up; `pop_heap` swaps the root with the last slot, shrinks, and
  sifts the new root down, as specified for the C++ heap algorithms.
* Thread interleaving is abstracted into explicit sequences of atomic
  operations (each mutex-guarded critical section of the source is one step).
-/

namespace ChannelManager

/-- `TaskPriority` from `src/Task.h` (enum class TaskPriority { HIGH, NORMAL, LOW }). -/
inductive TaskPriority where
  | HIGH
  | NORMAL
  | LOW
deriving DecidableEq, Repr

/-- The underlying integral value of the `TaskPriority` enumerator
(`HIGH = 0`, `NORMAL = 1`, `LOW = 2`), which is what `TaskComparator`
compares with `>`. -/
def TaskPriority.rank : TaskPriority → Nat
  | .HIGH => 0
  | .NORMAL => 1
  | .LOW => 2

section AssocMap

variable {κ α : Type} [DecidableEq κ]

/-- Lookup in a `std::map` modelled as an association list (`find`). -/
def mapFind? (m : List (κ × α)) (k : κ) : Option α :=
  (m.find? (fun p => p.1 == k)).map (·.2)

/-- `m.count(k) > 0` for a `std::map`. -/
def mapContains (m : List (κ × α)) (k : κ) : Bool :=
  (mapFind? m k).isSome

/-- Lookup with a default value. -/
def mapGetD (m : List (κ × α)) (k : κ) (d : α) : α :=
  (mapFind? m k).getD d

/-- `m[k] = v` for a `std::map`: overwrite the entry if the key is present,
append it otherwise. -/
def mapInsert (m : List (κ × α)) (k : κ) (v : α) : List (κ × α) :=
  match m with
  | [] => [(k, v)]
  | (k1, v1) :: rest =>
    if k1 == k then (k, v) :: rest else (k1, v1) :: mapInsert rest k v

/-- `m.erase(k)` for a `std::map`. -/
def mapErase (m : List (κ × α)) (k : κ) : List (κ × α) :=
  match m with
  | [] => []
  | (k1, v1) :: rest =>
    if k1 == k then rest else (k1, v1) :: mapErase rest k

/-- The key list of a map. -/
def mapKeys (m : List (κ × α)) : List κ := m.map (·.1)

theorem mapFind?_insert_self (m : List (κ × α)) (k : κ) (v : α) :
    mapFind? (mapInsert m k v) k = some v := by
  induction m with
  | nil => simp [mapInsert, mapFind?]
  | cons p rest ih =>
    obtain ⟨k1, v1⟩ := p
    by_cases h : k1 = k
    · subst h
      simp [mapInsert, mapFind?]
    · simp only [mapInsert, beq_iff_eq, h, if_false]
      simpa [mapFind?, h] using ih

theorem mapFind?_insert_ne (m : List (κ × α)) (k k' : κ) (v : α) (h : k' ≠ k) :
    mapFind? (mapInsert m k v) k' = mapFind? m k' := by
  induction m with
  | nil => simp [mapInsert, mapFind?, Ne.symm h]
  | cons p rest ih =>
    obtain ⟨k1, v1⟩ := p
    by_cases h1 : k1 = k
    · subst h1
      simp [mapInsert, mapFind?, Ne.symm h, h]
    · by_cases h2 : k1 = k'
      · subst h2
        simp [mapInsert, mapFind?, h1]
      · simp only [mapInsert, beq_iff_eq, h1, if_false]
        simpa [mapFind?, h1, h2] using ih

theorem mapKeys_cons (p : κ × α) (m : List (κ × α)) :
    mapKeys (p :: m) = p.1 :: mapKeys m := rfl

theorem mapKeys_insert (m : List (κ × α)) (k k' : κ) (v : α)
    (h : k' ∈ mapKeys (mapInsert m k v)) : k' = k ∨ k' ∈ mapKeys m := by
  induction m with
  | nil =>
    simp only [mapInsert, mapKeys, List.map_cons, List.map_nil,
      List.mem_singleton] at h
    exact Or.inl h
  | cons p rest ih =>
    obtain ⟨k1, v1⟩ := p
    by_cases h1 : k1 = k
    · subst h1
      simp only [mapInsert, beq_self_eq_true, if_true] at h
      rw [mapKeys_cons] at h
      rcases List.mem_cons.mp h with h2 | h2
      · exact Or.inl h2
      · exact Or.inr (List.mem_cons_of_mem _ h2)
    · simp only [mapInsert, beq_iff_eq, h1, if_false] at h
      rw [mapKeys_cons] at h
      rcases List.mem_cons.mp h with h2 | h2
      · refine Or.inr ?_
        rw [mapKeys_cons]
        subst h2
        exact List.mem_cons_self _ _
      · rcases ih h2 with h3 | h3
        · exact Or.inl h3
        · refine Or.inr ?_
          rw [mapKeys_cons]
          exact List.mem_cons_of_mem _ h3

theorem mapContains_iff (m : List (κ × α)) (k : κ) :
    mapContains m k = true ↔ ∃ v, mapFind? m k = some v := by
  simp [mapContains, Option.isSome_iff_exists]

end AssocMap

/-! ## Channel data service (`DummyChannelDataService`, `src/ChannelService.h`)

`channelDataTable : std::map<uint32_t, std::map<std::string, float>>` and
`subscribedChannels : std::map<uint32_t, bool>`. -/

/-- `MAX_CHAN_NUM` from `src/ChannelService.h`. -/
def MAX_CHAN_NUM : Nat := 32

/-- One telemetry frame / one channel record: `std::map<std::string, float>`. -/
abbrev Frame := List (String × ℚ)

/-- The outer channel data table. -/
abbrev Table := List (Nat × Frame)

/-- The subscription map `subscribedChannels`. -/
abbrev SubMap := List (Nat × Bool)

/-- `subscribeChannel` : `subscribedChannels[channel] = true`. -/
def subscribeChannel (subs : SubMap) (ch : Nat) : SubMap :=
  mapInsert subs ch true

/-- `unsubscribeChannel` : `subscribedChannels[channel] = false`. -/
def unsubscribeChannel (subs : SubMap) (ch : Nat) : SubMap :=
  mapInsert subs ch false

/-- `isChannelSubscribed` : entry present and equal to `true`. -/
def isChannelSubscribed (subs : SubMap) (ch : Nat) : Bool :=
  mapGetD subs ch false

/-- The per-entry merge loop of `receiveM4Data`:
`for (pair : data) channelDataTable[channel][pair.first] = pair.second`. -/
def mergeFrame (r : Frame) (f : Frame) : Frame :=
  f.foldl (fun acc kv => mapInsert acc kv.1 kv.2) r

/-- `DummyChannelDataService::receiveM4Data` (`src/ChannelService.h:323-349`).
Merges the frame into the channel record entry by entry (`updated` is set on
every iteration of the loop), then — when the frame has both a `voltage` and a
`timestamp` key — stores the dummy derivative `channelDataTable[channel]["dvdt"]
= 0.001f` and sets `updated` again.  Returns the new table and `updated`.
When the loop body never runs and the derivative branch is not taken, the
C++ `operator[]` on the outer map is never reached, so the table is unchanged. -/
def receiveM4Data (t : Table) (ch : Nat) (f : Frame) : Table × Bool :=
  let t1 := if f.isEmpty then t else mapInsert t ch (mergeFrame (mapGetD t ch []) f)
  let upd1 := !f.isEmpty
  if mapContains f "voltage" && mapContains f "timestamp" then
    (mapInsert t1 ch (mapInsert (mapGetD t1 ch []) "dvdt" (1/1000)), true)
  else
    (t1, upd1)

/-- Common body of the typed getters `getVoltage` / `getCurrent` / `getDvDt`
(`src/ChannelService.h:265-299`): when `channelDataTable.count(channel) > 0`
the body evaluates `channelDataTable[channel][key]`, whose inner `operator[]`
value-initialises the entry to `0.0f` when `key` is absent, mutating the
record; otherwise it returns the default `0.0f` without touching the table. -/
def getMetric (t : Table) (ch : Nat) (key : String) : Table × ℚ :=
  if mapContains t ch then
    let r0 := mapGetD t ch []
    match mapFind? r0 key with
    | some v => (t, v)
    | none => (mapInsert t ch (mapInsert r0 key 0), 0)
  else
    (t, 0)

/-- `DummyChannelDataService::getVoltage`. -/
def getVoltage (t : Table) (ch : Nat) : Table × ℚ := getMetric t ch "voltage"

/-- `DummyChannelDataService::getCurrent`. -/
def getCurrent (t : Table) (ch : Nat) : Table × ℚ := getMetric t ch "current"

/-- `DummyChannelDataService::getDvDt`. -/
def getDvDt (t : Table) (ch : Nat) : Table × ℚ := getMetric t ch "dvdt"

/-- `DummyChannelDataService::getChannelData` (`src/ChannelService.h:307-313`):
returns the channel's record, or the static empty map when absent; `const`,
never mutates. -/
def getChannelData (t : Table) (ch : Nat) : Frame :=
  if mapContains t ch then mapGetD t ch [] else []

/-- `StepLimit` from `src/BatteryTestingService.h:22-26`. -/
structure StepLimit where
  var_type : String
  target_value : ℚ
deriving DecidableEq, Repr

/-- `isLimitReached` (`src/BatteryTestingService.cpp:328-336`): scans the
limit list and returns true on the first entry whose metric is present in the
data and `>=` its target value. -/
def isLimitReached (data : Frame) (limits : List StepLimit) : Bool :=
  limits.any (fun lim =>
    match mapFind? data lim.var_type with
    | some v => decide (v ≥ lim.target_value)
    | none => false)

/-! ## Callback registry (`BatteryTestingService::callbackMap`)

`std::map<uint32_t, std::vector<callback>>`.  The registry is generic in the
callback representation `α`: opaque handles for the registry claims, the
concrete CCCV callbacks for the orchestrator claims. -/

section CallbackRegistry

variable {α : Type}

/-- The callback map `callbackMap`. -/
abbrev CbMap (α : Type) := List (Nat × List α)

/-- `BatteryTestingService::registerCallback` (`cpp:234-244`): creates an
empty vector for the channel if absent, then appends the callback. -/
def registerCallback (m : CbMap α) (ch : Nat) (cb : α) : CbMap α :=
  let m1 := if mapContains m ch then m else mapInsert m ch []
  mapInsert m1 ch (mapGetD m1 ch [] ++ [cb])

/-- `BatteryTestingService::unregisterCallback` (`cpp:272-291`): a negative
index erases the channel entry wholesale; an in-range index erases that
position and drops the channel entry when the vector becomes empty; an
out-of-range index is a no-op, as is an absent channel. -/
def unregisterCallback (m : CbMap α) (ch : Nat) (callbackIndex : Int) : CbMap α :=
  match mapFind? m ch with
  | none => m
  | some l =>
    if callbackIndex < 0 then
      mapErase m ch
    else if callbackIndex < (l.length : Int) then
      let l2 := l.eraseIdx callbackIndex.toNat
      if l2.isEmpty then mapErase m ch else mapInsert m ch l2
    else m

/-- One registry operation, for quantifying over operation sequences. -/
inductive CbOp (α : Type) where
  | register (ch : Nat) (cb : α)
  | unregister (ch : Nat) (callbackIndex : Int)

/-- Apply one registry operation. -/
def applyCbOp (m : CbMap α) : CbOp α → CbMap α
  | .register ch cb => registerCallback m ch cb
  | .unregister ch i => unregisterCallback m ch i

/-- The registry after a sequence of operations, starting from the empty map
(the state of `callbackMap` at service construction). -/
def runCbOps (ops : List (CbOp α)) : CbMap α :=
  ops.foldl applyCbOp []

end CallbackRegistry

/-! ## Ingest loop (`BatteryTestingService::m4DataThreadFunction`) -/

/-- The tasks materialised by one ingest iteration for one channel
(`FilteringDataTask`, `FittingDataTask`, `CallbackControlTask` from
`src/Task.h`). -/
inductive IngestTask (α : Type) where
  | filtering (ch : Nat) (data : Frame)
  | fitting (ch : Nat) (data : Frame)
  | callbackEval (ch : Nat) (cb : α)

/-- Task priorities fixed by the constructors in `src/Task.h`:
`FilteringDataTask`/`FittingDataTask` are `DataTask(NORMAL)`,
`CallbackControlTask` is `ControlTask(HIGH)`. -/
def IngestTask.priority {α : Type} : IngestTask α → TaskPriority
  | .filtering _ _ => .NORMAL
  | .fitting _ _ => .NORMAL
  | .callbackEval _ _ => .HIGH

/-- `BatteryTestingService::handleCallbacks` (`cpp:252-263`): when the channel
has a non-empty callback vector, materialise one `CallbackControlTask` per
registered callback, in registration order. -/
def handleCallbacks {α : Type} (m : CbMap α) (ch : Nat) : List (IngestTask α) :=
  match mapFind? m ch with
  | some l => if l.isEmpty then [] else l.map (fun cb => IngestTask.callbackEval ch cb)
  | none => []

/-- The body of the per-channel loop of `m4DataThreadFunction`
(`cpp:309-319`): update the table via `receiveM4Data`, enqueue the filtering
and fitting tasks, and — only when the channel is subscribed — the callback
evaluation tasks.  Returns the new table and the tasks submitted. -/
def ingestChannel {α : Type} (t : Table) (subs : SubMap) (m : CbMap α)
    (ch : Nat) (f : Frame) : Table × List (IngestTask α) :=
  let t2 := (receiveM4Data t ch f).1
  let tasks := [IngestTask.filtering ch f, IngestTask.fitting ch f]
  if isChannelSubscribed subs ch then (t2, tasks ++ handleCallbacks m ch)
  else (t2, tasks)

/-- Number of `CallbackControlTask`s in a task list. -/
def countCallbackEval {α : Type} (l : List (IngestTask α)) : Nat :=
  l.countP (fun task =>
    match task with
    | .callbackEval _ _ => true
    | _ => false)

/-! ## CCCV orchestrator (`BatteryTestingService::runCCCV`, `cpp:168-205`) -/

/-- The control tasks created by the orchestrator: `CCTask` and `CVTask`
from `src/Task.h`. -/
inductive CtrlTask where
  | ccTask (channel : Nat) (current : ℚ)
  | cvTask (channel : Nat) (targetVoltage : ℚ)
deriving DecidableEq, Repr

/-- The priorities fixed by the constructors:
`CCTask` is `ControlTask(TaskPriority::NORMAL)` (`Task.h:154-155`) and
`CVTask` is `ControlTask(TaskPriority::NORMAL)` (`Task.h:182-183`). -/
def CtrlTask.priority : CtrlTask → TaskPriority
  | .ccTask _ _ => .NORMAL
  | .cvTask _ _ => .NORMAL

/-- The three callback closures installed by `runCCCV`, identified by their
captured data: the CC→CV transition check, the (empty-bodied) CV hold check,
and the step-limit check. -/
inductive CCCVCallback where
  | transition (targetVoltage : ℚ)
  | cvHold
  | limitCheck (steplimit : List StepLimit)
deriving DecidableEq, Repr

/-- The effects a callback body may perform on the service. -/
inductive CbAction where
  | addTask (t : CtrlTask)
  | unregister (ch : Nat) (callbackIndex : Int)
  | register (ch : Nat) (cb : CCCVCallback)
  | unsubscribe (ch : Nat)
  | terminate (ch : Nat)
deriving DecidableEq, Repr

/-- The lambda bodies from `runCCCV` (`cpp:179-204`), evaluated against a data
snapshot.  `channel` is the capture of the `runCCCV` argument.  The transition
callback fires when the snapshot holds `voltage >= targetVoltage`; it then
enqueues a `CVTask`, unregisters itself (index 0) and registers the CV-hold
callback.  The limit callback fires when` isLimitReached`; it then unregisters
all callbacks, unsubscribes the channel and terminates the test. -/
def evalCallback (channel : Nat) : CCCVCallback → Frame → List CbAction
  | .transition targetVoltage, data =>
    if mapContains data "voltage" && decide (mapGetD data "voltage" 0 ≥ targetVoltage) then
      [CbAction.addTask (CtrlTask.cvTask channel targetVoltage),
       CbAction.unregister channel 0,
       CbAction.register channel CCCVCallback.cvHold]
    else []
  | .cvHold, _ => []
  | .limitCheck steplimit, data =>
    if isLimitReached data steplimit then
      [CbAction.unregister channel (-1),
       CbAction.unsubscribe channel,
       CbAction.terminate channel]
    else []

/-- The service state touched by `runCCCV`. -/
structure SvcState where
  subs : SubMap
  callbackMap : CbMap CCCVCallback
  queue : List CtrlTask
deriving Repr

/-- `BatteryTestingService::runCCCV` (`cpp:168-205`): subscribes the channel,
enqueues the `CCTask`, and registers the transition and limit callbacks, in
that order; `queue` records the tasks handed to `addTask` in submission
order.  The function performs no validation of the channel identifier. -/
def runCCCV (st : SvcState) (channel : Nat) (current targetVoltage : ℚ)
    (steplimit : List StepLimit) : SvcState :=
  { subs := subscribeChannel st.subs channel
    callbackMap := registerCallback
      (registerCallback st.callbackMap channel (CCCVCallback.transition targetVoltage))
      channel (CCCVCallback.limitCheck steplimit)
    queue := st.queue ++ [CtrlTask.ccTask channel current] }

/-! ## Table operation sequences (for the snapshot-key invariant) -/

/-- One operation on the channel data service, as invokable through its
public interface. -/
inductive TableOp where
  | update (ch : Nat) (f : Frame)
  | getV (ch : Nat)
  | getC (ch : Nat)
  | getDv (ch : Nat)
  | subscribe (ch : Nat)
  | unsubscribe (ch : Nat)

/-- Apply one data-service operation to the service state
(table, subscription map), discarding returned values. -/
def applyTableOp (s : Table × SubMap) : TableOp → Table × SubMap
  | .update ch f => ((receiveM4Data s.1 ch f).1, s.2)
  | .getV ch => ((getVoltage s.1 ch).1, s.2)
  | .getC ch => ((getCurrent s.1 ch).1, s.2)
  | .getDv ch => ((getDvDt s.1 ch).1, s.2)
  | .subscribe ch => (s.1, subscribeChannel s.2 ch)
  | .unsubscribe ch => (s.1, unsubscribeChannel s.2 ch)

/-- The data-service state after a sequence of operations from the initial
(empty) state. -/
def runTableOps (ops : List TableOp) : Table × SubMap :=
  ops.foldl applyTableOp ([], [])

/-- The keys that one operation writes into channel `ch`'s record: an update
writes the keys of its frame plus, when the frame has both `voltage` and
`timestamp`, the derived key `dvdt`; every other operation writes none
(as specified — the getters are not supposed to write). -/
def updateWrites (ch : Nat) : TableOp → List String
  | .update ch2 f =>
    if ch2 = ch then
      mapKeys f ++ (if mapContains f "voltage" && mapContains f "timestamp" then ["dvdt"] else [])
    else []
  | _ => []

/-- All keys written into channel `ch`'s record by the updates of an
operation sequence. -/
def writtenKeys (ch : Nat) (ops : List TableOp) : List String :=
  ops.foldr (fun op acc => updateWrites ch op ++ acc) []

/-! ## Priority dispatcher (`BatteryTestingService::taskQueue`)

`std::priority_queue<Task*, std::vector<Task*>, TaskComparator>` modelled as
the array-backed binary heap of the C++ heap algorithms: `push` appends the
element and sifts it up; `pop` swaps the root with the last slot, shrinks by
one, and sifts the new root down, descending toward the comparator-greater
child.  The sift loops are written with explicit fuel (an upper bound on the
number of iterations) so that every definition is structurally recursive. -/

/-- A queued task: its priority field and its submission sequence number
(the latter only identifies the task; the comparator never sees it). -/
structure QTask where
  prio : TaskPriority
  tid : Nat
deriving DecidableEq, Repr

/-- `TaskComparator` (`src/Task.h:26-30`): `a->priority > b->priority`,
comparing the underlying enumerator values (`HIGH = 0 < NORMAL = 1 < LOW =
2`), so the heap keeps a task of minimal rank — highest precedence — on top. -/
def taskComparator (a b : QTask) : Bool :=
  decide (a.prio.rank > b.prio.rank)

/-- Exchange the entries at positions `i` and `j` (no-op when out of range). -/
def swapL {β : Type} (v : List β) (i j : Nat) : List β :=
  match v[i]?, v[j]? with
  | some a, some b => (v.set i b).set j a
  | _, _ => v

/-- Sift the element in the hole at index `h` up toward the root, swapping
with the parent while the parent is comparator-less than it (`push_heap`).
`fuel ≥ h` makes the fuel irrelevant. -/
def siftUpF : Nat → List QTask → Nat → List QTask
  | 0, v, _ => v
  | fuel + 1, v, h =>
    if h = 0 then v
    else
      let p := (h - 1) / 2
      match v[p]?, v[h]? with
      | some a, some c =>
        if taskComparator a c then siftUpF fuel (swapL v p h) p else v
      | _, _ => v

/-- The comparator-greater (lower-rank) child of position `i`, given that the
left child holds `cl`: the right child when it exists and `cl` is
comparator-less than it, the left child otherwise. -/
def pickChild (v : List QTask) (cl : QTask) (i : Nat) : Nat :=
  match v[2 * i + 2]? with
  | some cr => if taskComparator cl cr then 2 * i + 2 else 2 * i + 1
  | none => 2 * i + 1

/-- Sift the element at index `h` down, swapping with the comparator-greater
child while that child is comparator-greater (`pop_heap` repair).
`fuel + h ≥ v.length` makes the fuel irrelevant. -/
def siftDownF : Nat → List QTask → Nat → List QTask
  | 0, v, _ => v
  | fuel + 1, v, i =>
    match v[2 * i + 1]?, v[i]? with
    | some cl, some a =>
      let c := pickChild v cl i
      match v[c]? with
      | some cc => if taskComparator a cc then siftDownF fuel (swapL v i c) c else v
      | none => v
    | _, _ => v

/-- `taskQueue.push` (inside `BatteryTestingService::addTask`): append and
sift up from the new last position. -/
def pushQ (v : List QTask) (x : QTask) : List QTask :=
  siftUpF v.length (v ++ [x]) v.length

/-- `taskQueue.top()` followed by `taskQueue.pop()` (the worker's dequeue,
`cpp:96-101`): returns the root and the remaining heap — root and last slot
exchanged, last slot dropped, new root sifted down. -/
def popQ (v : List QTask) : Option (QTask × List QTask) :=
  match v[0]? with
  | none => none
  | some t =>
    let w := (swapL v 0 (v.length - 1)).dropLast
    some (t, siftDownF w.length w 0)

/-- One dispatcher-queue operation: a submission (`addTask`) or a worker
dequeue. -/
inductive QOp where
  | push (prio : TaskPriority) (tid : Nat)
  | pop

/-- Apply one queue operation (a dequeue on an empty queue does nothing —
the worker blocks instead). -/
def applyQOp (v : List QTask) : QOp → List QTask
  | .push p n => pushQ v ⟨p, n⟩
  | .pop =>
    match popQ v with
    | none => v
    | some (_, rest) => rest

/-- The queue contents after a sequence of operations from the empty queue. -/
def runQOps (ops : List QOp) : List QTask :=
  ops.foldl applyQOp []

/-- Dequeue up to `n` tasks and list them in removal order. -/
def drainQ : Nat → List QTask → List QTask
  | 0, _ => []
  | n + 1, v =>
    match popQ v with
    | none => []
    | some (t, rest) => t :: drainQ n rest

/-- Priority `a` strictly precedes priority `b` in dispatcher precedence
(`HIGH` before `NORMAL` before `LOW`). -/
def strictlyHigherPriority (a b : TaskPriority) : Prop :=
  a.rank < b.rank

/-- The binary-heap shape invariant of the backing vector: every parent is
comparator-at-least its children, i.e. has rank at most theirs. -/
def isHeap (v : List QTask) : Prop :=
  ∀ i pa ca, 0 < i → v[(i - 1) / 2]? = some pa → v[i]? = some ca →
    pa.prio.rank ≤ ca.prio.rank

/-! ### Heap verification: the swap primitive -/

section SwapLemmas

variable {β : Type}

theorem length_swapL (v : List β) (i j : Nat) : (swapL v i j).length = v.length := by
  unfold swapL
  cases hi : v[i]? <;> cases hj : v[j]? <;> simp

theorem getElem?_swapL_fst (v : List β) (i j : Nat) (a b : β)
    (hi : v[i]? = some a) (hj : v[j]? = some b) : (swapL v i j)[i]? = some b := by
  unfold swapL
  rw [hi, hj]
  by_cases hij : i = j
  · subst hij
    rw [hi] at hj
    cases hj
    rw [List.getElem?_set_self (by simpa using (List.getElem?_eq_some.mp hi).1)]
  · rw [List.getElem?_set_ne (Ne.symm hij),
      List.getElem?_set_self (List.getElem?_eq_some.mp hi).1]

theorem getElem?_swapL_snd (v : List β) (i j : Nat) (a b : β)
    (hi : v[i]? = some a) (hj : v[j]? = some b) : (swapL v i j)[j]? = some a := by
  unfold swapL
  rw [hi, hj]
  rw [List.getElem?_set_self (by simpa using (List.getElem?_eq_some.mp hj).1)]

theorem getElem?_swapL_other (v : List β) (i j k : Nat) (hki : k ≠ i) (hkj : k ≠ j) :
    (swapL v i j)[k]? = v[k]? := by
  unfold swapL
  cases hi : v[i]? <;> cases hj : v[j]? <;>
    simp [List.getElem?_set_ne (Ne.symm hkj), List.getElem?_set_ne (Ne.symm hki)]

theorem mem_swapL (v : List β) (i j : Nat) (x : β) (h : x ∈ swapL v i j) : x ∈ v := by
  unfold swapL at h
  cases hi : v[i]? with
  | none => rw [hi] at h; exact h
  | some a =>
    cases hj : v[j]? with
    | none => rw [hi, hj] at h; exact h
    | some b =>
      rw [hi, hj] at h
      rcases List.mem_or_eq_of_mem_set h with h1 | h1
      · rcases List.mem_or_eq_of_mem_set h1 with h2 | h2
        · exact h2
        · subst h2
          exact List.getElem?_mem hj
      · subst h1
        exact List.getElem?_mem hi

end SwapLemmas

/-! ### Heap verification: root minimality -/

theorem isHeap_root_le (v : List QTask) (hv : isHeap v) (t : QTask)
    (ht : v[0]? = some t) :
    ∀ (i : Nat) (u : QTask), v[i]? = some u → t.prio.rank ≤ u.prio.rank := by
  intro i u hu
  induction i using Nat.strong_induction_on generalizing u with
  | _ i ih =>
    rcases Nat.eq_zero_or_pos i with h0 | h0
    · subst h0
      rw [ht] at hu
      cases hu
      exact le_refl _
    · have hi : i < v.length := (List.getElem?_eq_some.mp hu).1
      have hplt : (i - 1) / 2 < v.length := lt_of_le_of_lt (by omega) hi
      have hpi : (i - 1) / 2 < i := by omega
      have hpa := List.getElem?_eq_getElem hplt
      exact le_trans (ih _ hpi _ hpa) (hv i _ u h0 hpa hu)

/-! ### Heap verification: sift-up -/

/-- Heap property everywhere except at the hole `h` (pairs indexed by the
child position). -/
def upA (v : List QTask) (h : Nat) : Prop :=
  ∀ i pa ca, 0 < i → i ≠ h → v[(i - 1) / 2]? = some pa → v[i]? = some ca →
    pa.prio.rank ≤ ca.prio.rank

/-- The hole's grandparent already bounds the hole's children, so moving the
parent down into the hole cannot break the edge above it. -/
def upB (v : List QTask) (h : Nat) : Prop :=
  0 < h → ∀ j gp cj, (j - 1) / 2 = h → v[(h - 1) / 2]? = some gp →
    v[j]? = some cj → gp.prio.rank ≤ cj.prio.rank

theorem isHeap_of_upA_stop (v : List QTask) (h : Nat) (hA : upA v h)
    (hstop : ∀ pa ca, 0 < h → v[(h - 1) / 2]? = some pa → v[h]? = some ca →
      pa.prio.rank ≤ ca.prio.rank) : isHeap v := by
  intro i pa ca hi0 hpa hca
  by_cases hih : i = h
  · subst hih
    exact hstop pa ca hi0 hpa hca
  · exact hA i pa ca hi0 hih hpa hca

theorem siftUp_step (v : List QTask) (h : Nat) (h0 : 0 < h) (a c : QTask)
    (hp : v[(h - 1) / 2]? = some a) (hc : v[h]? = some c)
    (hcomp : c.prio.rank < a.prio.rank) (hA : upA v h) (hB : upB v h) :
    upA (swapL v ((h - 1) / 2) h) ((h - 1) / 2) ∧
      upB (swapL v ((h - 1) / 2) h) ((h - 1) / 2) := by
  set p := (h - 1) / 2 with hpdef
  have hph : p < h := by omega
  have hv'p : (swapL v p h)[p]? = some c := getElem?_swapL_fst v p h a c hp hc
  have hv'h : (swapL v p h)[h]? = some a := getElem?_swapL_snd v p h a c hp hc
  have hother : ∀ k, k ≠ p → k ≠ h → (swapL v p h)[k]? = v[k]? := fun k hkp hkh =>
    getElem?_swapL_other v p h k hkp hkh
  constructor
  · -- upA for the new hole p
    intro i pa ca hi0 hip hpa hca
    by_cases hih : i = h
    · -- the swapped edge itself
      subst hih
      rw [hpdef] at hpa
      rw [hv'p] at hpa
      rw [hv'h] at hca
      cases hpa; cases hca
      exact le_of_lt hcomp
    · by_cases hq : (i - 1) / 2 = h
      · -- i is a child of the old hole: use the grandparent bound
        have hqi : (i - 1) / 2 ≠ i := by omega
        rw [hq, hv'h] at hpa
        cases hpa
        rw [hother i hip hih] at hca
        exact hB h0 i a ca hq hp hca
      · by_cases hq2 : (i - 1) / 2 = p
        · -- i is the sibling of the old hole under p
          rw [hq2, hv'p] at hpa
          cases hpa
          rw [hother i hip hih] at hca
          have := hA i a ca hi0 hih (by rw [hq2]; exact hp) hca
          exact le_trans (le_of_lt hcomp) this
        · -- an edge untouched by the swap
          rw [hother _ hq2 hq] at hpa
          rw [hother i hip hih] at hca
          exact hA i pa ca hi0 hih hpa hca
  · -- upB for the new hole p
    intro hp0 j gp cj hj hgp hcj
    have hpp : (p - 1) / 2 ≠ p := by omega
    have hpph : (p - 1) / 2 ≠ h := by omega
    rw [hother _ hpp hpph] at hgp
    have hjp : p < j := by omega
    have hgpa : gp.prio.rank ≤ a.prio.rank :=
      hA p gp a hp0 (by omega) hgp hp
    by_cases hjh : j = h
    · subst hjh
      rw [hv'h] at hcj
      cases hcj
      exact hgpa
    · rw [hother j (by omega) hjh] at hcj
      exact le_trans hgpa (hA j a cj (by omega) hjh (by rw [hj]; exact hp) hcj)

theorem siftUpF_isHeap : ∀ fuel h v, h ≤ fuel → upA v h → upB v h →
    isHeap (siftUpF fuel v h) := by
  intro fuel
  induction fuel with
  | zero =>
    intro h v hle hA _
    have h0 : h = 0 := by omega
    subst h0
    exact isHeap_of_upA_stop v 0 hA (fun pa ca h0 _ _ => absurd h0 (by omega))
  | succ fuel ih =>
    intro h v hle hA hB
    by_cases h0 : h = 0
    · subst h0
      simp only [siftUpF, if_pos rfl]
      exact isHeap_of_upA_stop v 0 hA (fun pa ca h0 _ _ => absurd h0 (by omega))
    · have hunf : siftUpF (fuel + 1) v h =
          match v[(h - 1) / 2]?, v[h]? with
          | some a, some c =>
            if taskComparator a c then
              siftUpF fuel (swapL v ((h - 1) / 2) h) ((h - 1) / 2)
            else v
          | _, _ => v := by
        simp only [siftUpF, if_neg h0]
      cases hc : v[h]? with
      | none =>
        have hstop : isHeap v := by
          refine isHeap_of_upA_stop v h hA ?_
          intro pa ca _ _ hca
          rw [hc] at hca
          cases hca
        cases hp : v[(h - 1) / 2]? <;> rw [hunf, hp, hc] <;> exact hstop
      | some c =>
        have hhlt : h < v.length := (List.getElem?_eq_some.mp hc).1
        have hplt : (h - 1) / 2 < v.length := lt_of_le_of_lt (by omega) hhlt
        cases hp : v[(h - 1) / 2]? with
        | none =>
          exact absurd hp (by rw [List.getElem?_eq_getElem hplt]; simp)
        | some a =>
          rw [hunf, hp, hc]
          show isHeap (if taskComparator a c then
            siftUpF fuel (swapL v ((h - 1) / 2) h) ((h - 1) / 2) else v)
          by_cases hcmp : taskComparator a c
          · rw [if_pos hcmp]
            have hrank : c.prio.rank < a.prio.rank := by
              simpa [taskComparator] using hcmp
            obtain ⟨hA2, hB2⟩ :=
              siftUp_step v h (by omega) a c hp hc hrank hA hB
            exact ih _ _ (by omega) hA2 hB2
          · rw [if_neg hcmp]
            have hrank : a.prio.rank ≤ c.prio.rank := by
              simpa [taskComparator] using hcmp
            refine isHeap_of_upA_stop v h hA ?_
            intro pa ca _ hpa hca
            rw [hp] at hpa
            rw [hc] at hca
            cases hpa; cases hca
            exact hrank

theorem isHeap_pushQ (v : List QTask) (x : QTask) (hv : isHeap v) :
    isHeap (pushQ v x) := by
  refine siftUpF_isHeap v.length v.length (v ++ [x]) (le_refl _) ?_ ?_
  · intro i pa ca hi0 hih hpa hca
    have hilen : i < v.length + 1 := by
      have := (List.getElem?_eq_some.mp hca).1
      simpa using this
    have hilt : i < v.length := by omega
    have hplt : (i - 1) / 2 < v.length := lt_of_le_of_lt (by omega) hilt
    rw [List.getElem?_append, if_pos hplt] at hpa
    rw [List.getElem?_append, if_pos hilt] at hca
    exact hv i pa ca hi0 hpa hca
  · intro h0 j gp cj hj _ hcj
    have hjlen : j < v.length + 1 := by
      have := (List.getElem?_eq_some.mp hcj).1
      simpa using this
    omega

/-! ### Heap verification: sift-down -/

/-- Heap property on every edge whose parent is not the hole `h`. -/
def downA (v : List QTask) (h : Nat) : Prop :=
  ∀ i pa ca, 0 < i → (i - 1) / 2 ≠ h → v[(i - 1) / 2]? = some pa →
    v[i]? = some ca → pa.prio.rank ≤ ca.prio.rank

/-- The hole's parent already bounds the hole's children, so moving a child
up into the hole cannot break the edge above it. -/
def downB (v : List QTask) (h : Nat) : Prop :=
  0 < h → ∀ j hp cj, (j - 1) / 2 = h → v[(h - 1) / 2]? = some hp →
    v[j]? = some cj → hp.prio.rank ≤ cj.prio.rank

/-- The chosen child exists, is one of the two children, and carries the
minimal rank among the existing children. -/
theorem pickChild_spec (v : List QTask) (cl : QTask) (i : Nat)
    (hl : v[2 * i + 1]? = some cl) :
    (pickChild v cl i = 2 * i + 1 ∨ pickChild v cl i = 2 * i + 2) ∧
      ∃ cc, v[pickChild v cl i]? = some cc ∧
        (∀ j cs, (j = 2 * i + 1 ∨ j = 2 * i + 2) → v[j]? = some cs →
          cc.prio.rank ≤ cs.prio.rank) := by
  cases hr : v[2 * i + 2]? with
  | none =>
    have hpc : pickChild v cl i = 2 * i + 1 := by
      unfold pickChild; rw [hr]
    rw [hpc]
    refine ⟨Or.inl rfl, cl, hl, ?_⟩
    intro j cs hj hcs
    rcases hj with hj | hj <;> subst hj
    · rw [hl] at hcs; cases hcs; exact le_refl _
    · rw [hr] at hcs; cases hcs
  | some cr =>
    have hpc : pickChild v cl i =
        if taskComparator cl cr then 2 * i + 2 else 2 * i + 1 := by
      unfold pickChild; rw [hr]
    by_cases hcmp : taskComparator cl cr
    · have hrank : cr.prio.rank < cl.prio.rank := by
        simpa [taskComparator] using hcmp
      rw [hpc, if_pos hcmp]
      refine ⟨Or.inr rfl, cr, hr, ?_⟩
      intro j cs hj hcs
      rcases hj with hj | hj <;> subst hj
      · rw [hl] at hcs; cases hcs; exact le_of_lt hrank
      · rw [hr] at hcs; cases hcs; exact le_refl _
    · have hrank : cl.prio.rank ≤ cr.prio.rank := by
        simpa [taskComparator] using hcmp
      rw [hpc, if_neg hcmp]
      refine ⟨Or.inl rfl, cl, hl, ?_⟩
      intro j cs hj hcs
      rcases hj with hj | hj <;> subst hj
      · rw [hl] at hcs; cases hcs; exact le_refl _
      · rw [hr] at hcs; cases hcs; exact hrank

theorem isHeap_of_downA_stop (v : List QTask) (h : Nat) (hA : downA v h)
    (hstop : ∀ j pa ca, 0 < j → (j - 1) / 2 = h → v[h]? = some pa →
      v[j]? = some ca → pa.prio.rank ≤ ca.prio.rank) : isHeap v := by
  intro i pa ca hi0 hpa hca
  by_cases hq : (i - 1) / 2 = h
  · exact hstop i pa ca hi0 hq (hq ▸ hpa) hca
  · exact hA i pa ca hi0 hq hpa hca

theorem siftDown_step (v : List QTask) (i c : Nat) (a cc : QTask)
    (hc2 : c = 2 * i + 1 ∨ c = 2 * i + 2)
    (hia : v[i]? = some a) (hcc : v[c]? = some cc)
    (hcomp : cc.prio.rank < a.prio.rank)
    (hmin : ∀ j cs, (j = 2 * i + 1 ∨ j = 2 * i + 2) → v[j]? = some cs →
      cc.prio.rank ≤ cs.prio.rank)
    (hA : downA v i) (hB : downB v i) :
    downA (swapL v i c) c ∧ downB (swapL v i c) c := by
  have hic : i < c := by omega
  have hchild : (c - 1) / 2 = i := by omega
  have hv'i : (swapL v i c)[i]? = some cc := getElem?_swapL_fst v i c a cc hia hcc
  have hv'c : (swapL v i c)[c]? = some a := getElem?_swapL_snd v i c a cc hia hcc
  have hother : ∀ k, k ≠ i → k ≠ c → (swapL v i c)[k]? = v[k]? := fun k hki hkc =>
    getElem?_swapL_other v i c k hki hkc
  constructor
  · -- downA for the new hole c
    intro j pa ca hj0 hqc hpa hca
    by_cases hji : j = i
    · -- the edge from i's parent down to i (which now holds cc)
      subst hji
      have hi0 : 0 < j := hj0
      have hqj : (j - 1) / 2 ≠ j := by omega
      rw [hother _ hqj hqc] at hpa
      rw [hv'i] at hca
      cases hca
      exact hB hj0 c pa cc hchild hpa hcc
    · by_cases hjc : j = c
      · -- the swapped edge itself
        subst hjc
        rw [hchild] at hpa
        rw [hv'i] at hpa
        rw [hv'c] at hca
        cases hpa; cases hca
        exact le_of_lt hcomp
      · by_cases hq : (j - 1) / 2 = i
        · -- the sibling of c under i (which now holds cc)
          have hjrange : j = 2 * i + 1 ∨ j = 2 * i + 2 := by omega
          rw [hq, hv'i] at hpa
          cases hpa
          rw [hother j hji hjc] at hca
          exact hmin j ca hjrange hca
        · -- an edge untouched by the swap
          rw [hother _ hq hqc] at hpa
          rw [hother j hji hjc] at hca
          exact hA j pa ca hj0 hq hpa hca
  · -- downB for the new hole c
    intro hc0 j hp cj hjc hhp hcj
    rw [hchild, hv'i] at hhp
    cases hhp
    have hjgt : c < j := by omega
    rw [hother j (by omega) (by omega)] at hcj
    exact hA j cc cj (by omega) (by omega) (by rw [hjc]; exact hcc) hcj

theorem siftDownF_isHeap : ∀ fuel v i, v.length ≤ fuel + i → downA v i → downB v i →
    isHeap (siftDownF fuel v i) := by
  intro fuel
  induction fuel with
  | zero =>
    intro v i hlen hA _
    refine isHeap_of_downA_stop v i hA ?_
    intro j pa ca hj0 hq hpa hca
    have : j < v.length := (List.getElem?_eq_some.mp hca).1
    omega
  | succ fuel ih =>
    intro v i hlen hA hB
    have hunf : siftDownF (fuel + 1) v i =
        match v[2 * i + 1]?, v[i]? with
        | some cl, some a =>
          let c := pickChild v cl i
          match v[c]? with
          | some cc => if taskComparator a cc then siftDownF fuel (swapL v i c) c else v
          | none => v
        | _, _ => v := rfl
    cases hl : v[2 * i + 1]? with
    | none =>
      have hlen2 : v.length ≤ 2 * i + 1 := by
        by_contra hcon
        rw [List.getElem?_eq_getElem (by omega)] at hl
        cases hl
      have hstop : isHeap v := by
        refine isHeap_of_downA_stop v i hA ?_
        intro j pa ca hj0 hq hpa hca
        have : j < v.length := (List.getElem?_eq_some.mp hca).1
        omega
      cases hi : v[i]? <;> rw [hunf, hl, hi] <;> exact hstop
    | some cl =>
      have hllt : 2 * i + 1 < v.length := (List.getElem?_eq_some.mp hl).1
      cases hi : v[i]? with
      | none =>
        exact absurd hi (by rw [List.getElem?_eq_getElem (by omega)]; simp)
      | some a =>
        obtain ⟨hcrange, cc, hcc, hmin⟩ := pickChild_spec v cl i hl
        rw [hunf, hl, hi]
        show isHeap
          (match v[pickChild v cl i]? with
          | some cc =>
            if taskComparator a cc then
              siftDownF fuel (swapL v i (pickChild v cl i)) (pickChild v cl i)
            else v
          | none => v)
        rw [hcc]
        show isHeap (if taskComparator a cc then
          siftDownF fuel (swapL v i (pickChild v cl i)) (pickChild v cl i) else v)
        by_cases hcmp : taskComparator a cc
        · rw [if_pos hcmp]
          have hrank : cc.prio.rank < a.prio.rank := by
            simpa [taskComparator] using hcmp
          obtain ⟨hA2, hB2⟩ :=
            siftDown_step v i (pickChild v cl i) a cc hcrange hi hcc hrank hmin hA hB
          refine ih _ _ ?_ hA2 hB2
          rw [length_swapL]
          omega
        · rw [if_neg hcmp]
          have hrank : a.prio.rank ≤ cc.prio.rank := by
            simpa [taskComparator] using hcmp
          refine isHeap_of_downA_stop v i hA ?_
          intro j pa ca hj0 hq hpa hca
          rw [hi] at hpa
          cases hpa
          have hjrange : j = 2 * i + 1 ∨ j = 2 * i + 2 := by omega
          exact le_trans hrank (hmin j ca hjrange hca)

/-! ### Heap verification: queue operations -/

theorem isHeap_nil : isHeap [] := by
  intro i pa ca _ hpa _
  simp at hpa

theorem popQ_some_elim (v : List QTask) (t : QTask) (rest : List QTask)
    (h : popQ v = some (t, rest)) :
    v[0]? = some t ∧
      rest = siftDownF ((swapL v 0 (v.length - 1)).dropLast).length
        ((swapL v 0 (v.length - 1)).dropLast) 0 := by
  unfold popQ at h
  cases h0 : v[0]? with
  | none => rw [h0] at h; cases h
  | some t2 =>
    rw [h0] at h
    simp only [Option.some.injEq, Prod.mk.injEq] at h
    obtain ⟨h1, h2⟩ := h
    subst h1
    exact ⟨rfl, h2.symm⟩

theorem getElem?_dropLast_lt {β : Type} (l : List β) (k : Nat)
    (hk : k < l.length - 1) : l.dropLast[k]? = l[k]? := by
  rw [List.dropLast_eq_take, List.getElem?_take, if_pos hk]

theorem popRest_getElem? (v : List QTask) (k : Nat) (hk0 : 0 < k)
    (hklt : k < v.length - 1) :
    ((swapL v 0 (v.length - 1)).dropLast)[k]? = v[k]? := by
  rw [getElem?_dropLast_lt _ _ (by rw [length_swapL]; omega)]
  exact getElem?_swapL_other v 0 (v.length - 1) k (by omega) (by omega)

theorem isHeap_popQ_rest (v : List QTask) (hv : isHeap v) (t : QTask)
    (rest : List QTask) (h : popQ v = some (t, rest)) : isHeap rest := by
  obtain ⟨h0, hrest⟩ := popQ_some_elim v t rest h
  subst hrest
  refine siftDownF_isHeap _ _ 0 (by omega) ?_ ?_
  · intro j pa ca hj0 hq hpa hca
    have hjlt := (List.getElem?_eq_some.mp hca).1
    rw [List.length_dropLast, length_swapL] at hjlt
    have hqlt : (j - 1) / 2 < v.length - 1 := by omega
    rw [popRest_getElem? v j hj0 hjlt] at hca
    rw [popRest_getElem? v _ (by omega) hqlt] at hpa
    exact hv j pa ca hj0 hpa hca
  · intro habs
    exact absurd habs (by omega)

theorem mem_siftDownF : ∀ fuel v i x, x ∈ siftDownF fuel v i → x ∈ v := by
  intro fuel
  induction fuel with
  | zero => intro v i x hx; exact hx
  | succ fuel ih =>
    intro v i x hx
    have hunf : siftDownF (fuel + 1) v i =
        match v[2 * i + 1]?, v[i]? with
        | some cl, some a =>
          (match v[pickChild v cl i]? with
          | some cc =>
            if taskComparator a cc then
              siftDownF fuel (swapL v i (pickChild v cl i)) (pickChild v cl i)
            else v
          | none => v)
        | _, _ => v := rfl
    rw [hunf] at hx
    cases hl : v[2 * i + 1]? with
    | none => rw [hl] at hx; exact hx
    | some cl =>
      rw [hl] at hx
      cases hi : v[i]? with
      | none => rw [hi] at hx; exact hx
      | some a =>
        rw [hi] at hx
        have hx2 : x ∈
            (match v[pickChild v cl i]? with
            | some cc =>
              if taskComparator a cc then
                siftDownF fuel (swapL v i (pickChild v cl i)) (pickChild v cl i)
              else v
            | none => v) := hx
        cases hcc : v[pickChild v cl i]? with
        | none => rw [hcc] at hx2; exact hx2
        | some cc =>
          rw [hcc] at hx2
          have hx3 : x ∈ (if taskComparator a cc then
              siftDownF fuel (swapL v i (pickChild v cl i)) (pickChild v cl i)
            else v) := hx2
          by_cases hcmp : taskComparator a cc
          · rw [if_pos hcmp] at hx3
            exact mem_swapL _ _ _ _ (ih _ _ _ hx3)
          · rw [if_neg hcmp] at hx3
            exact hx3

theorem mem_popQ_rest (v : List QTask) (t : QTask) (rest : List QTask)
    (h : popQ v = some (t, rest)) (u : QTask) (hu : u ∈ rest) : u ∈ v := by
  obtain ⟨_, hrest⟩ := popQ_some_elim v t rest h
  subst hrest
  have h1 := mem_siftDownF _ _ _ _ hu
  rw [List.dropLast_eq_take] at h1
  exact mem_swapL _ _ _ _ (List.mem_of_mem_take h1)

theorem isHeap_foldl (ops : List QOp) : ∀ v, isHeap v →
    isHeap (ops.foldl applyQOp v) := by
  induction ops with
  | nil => intro v hv; exact hv
  | cons op ops ih =>
    intro v hv
    refine ih _ ?_
    cases op with
    | push p n => exact isHeap_pushQ v _ hv
    | pop =>
      show isHeap (match popQ v with | none => v | some (_, rest) => rest)
      cases hp : popQ v with
      | none => exact hv
      | some pr => exact isHeap_popQ_rest v hv pr.1 pr.2 (by rw [hp])

theorem isHeap_runQOps (ops : List QOp) : isHeap (runQOps ops) :=
  isHeap_foldl ops [] isHeap_nil

/-! ### Data-service lemmas -/

section AssocMapMore

variable {κ α : Type} [DecidableEq κ]

theorem mapFind?_cons (k1 : κ) (v1 : α) (m : List (κ × α)) (k : κ) :
    mapFind? ((k1, v1) :: m) k = if k1 = k then some v1 else mapFind? m k := by
  by_cases h : k1 = k <;> simp [mapFind?, h]

theorem mapGetD_insert_self (m : List (κ × α)) (k : κ) (v d : α) :
    mapGetD (mapInsert m k v) k d = v := by
  simp [mapGetD, mapFind?_insert_self]

theorem mapGetD_eq_nil_of_not_contains {m : List (κ × List α)} {k : κ}
    (h : mapContains m k = false) : mapGetD m k [] = [] := by
  unfold mapContains at h
  unfold mapGetD
  cases hf : mapFind? m k with
  | none => rfl
  | some l => rw [hf] at h; cases h

theorem mapFind?_mem (m : List (κ × α)) (k : κ) (a : α)
    (h : mapFind? m k = some a) : (k, a) ∈ m := by
  induction m with
  | nil => cases h
  | cons q rest ih =>
    obtain ⟨k1, v1⟩ := q
    rw [mapFind?_cons] at h
    by_cases h1 : k1 = k
    · rw [if_pos h1] at h
      cases h
      subst h1
      exact List.mem_cons_self _ _
    · rw [if_neg h1] at h
      exact List.mem_cons_of_mem _ (ih h)

theorem mem_mapInsert (m : List (κ × α)) (k : κ) (v : α) (p : κ × α)
    (h : p ∈ mapInsert m k v) : p = (k, v) ∨ p ∈ m := by
  induction m with
  | nil => simpa [mapInsert] using h
  | cons q rest ih =>
    obtain ⟨k1, v1⟩ := q
    by_cases h1 : k1 = k
    · subst h1
      simp only [mapInsert, beq_self_eq_true, if_true] at h
      rcases List.mem_cons.mp h with h2 | h2
      · exact Or.inl h2
      · exact Or.inr (List.mem_cons_of_mem _ h2)
    · simp only [mapInsert, beq_iff_eq, h1, if_false] at h
      rcases List.mem_cons.mp h with h2 | h2
      · exact Or.inr (h2 ▸ List.mem_cons_self _ _)
      · rcases ih h2 with h3 | h3
        · exact Or.inl h3
        · exact Or.inr (List.mem_cons_of_mem _ h3)

theorem mem_mapInsert_nodup (m : List (κ × α)) (k : κ) (v : α) (p : κ × α)
    (hnd : (mapKeys m).Nodup) (h : p ∈ mapInsert m k v) :
    p = (k, v) ∨ (p ∈ m ∧ p.1 ≠ k) := by
  induction m with
  | nil => simpa [mapInsert] using h
  | cons q rest ih =>
    obtain ⟨k1, v1⟩ := q
    rw [mapKeys_cons] at hnd
    have hnd1 : k1 ∉ mapKeys rest := (List.nodup_cons.mp hnd).1
    have hnd2 : (mapKeys rest).Nodup := (List.nodup_cons.mp hnd).2
    by_cases h1 : k1 = k
    · subst h1
      simp only [mapInsert, beq_self_eq_true, if_true] at h
      rcases List.mem_cons.mp h with h2 | h2
      · exact Or.inl h2
      · refine Or.inr ⟨List.mem_cons_of_mem _ h2, ?_⟩
        intro hpk
        exact hnd1 (by
          rw [← hpk]
          exact List.mem_map_of_mem _ h2)
    · simp only [mapInsert, beq_iff_eq, h1, if_false] at h
      rcases List.mem_cons.mp h with h2 | h2
      · subst h2
        exact Or.inr ⟨List.mem_cons_self _ _, h1⟩
      · rcases ih hnd2 h2 with h3 | h3
        · exact Or.inl h3
        · exact Or.inr ⟨List.mem_cons_of_mem _ h3.1, h3.2⟩

theorem mem_mapErase (m : List (κ × α)) (k : κ) (p : κ × α)
    (h : p ∈ mapErase m k) : p ∈ m := by
  induction m with
  | nil => simp [mapErase] at h
  | cons q rest ih =>
    obtain ⟨k1, v1⟩ := q
    by_cases h1 : k1 = k
    · subst h1
      simp only [mapErase, beq_self_eq_true, if_true] at h
      exact List.mem_cons_of_mem _ h
    · simp only [mapErase, beq_iff_eq, h1, if_false] at h
      rcases List.mem_cons.mp h with h2 | h2
      · exact h2 ▸ List.mem_cons_self _ _
      · exact List.mem_cons_of_mem _ (ih h2)

theorem mapKeys_erase_subset (m : List (κ × α)) (k k' : κ)
    (h : k' ∈ mapKeys (mapErase m k)) : k' ∈ mapKeys m := by
  obtain ⟨p, hp, hpk⟩ := List.mem_map.mp h
  exact hpk ▸ List.mem_map_of_mem _ (mem_mapErase m k p hp)

theorem nodup_mapKeys_insert (m : List (κ × α)) (k : κ) (v : α)
    (hnd : (mapKeys m).Nodup) : (mapKeys (mapInsert m k v)).Nodup := by
  induction m with
  | nil => simp [mapInsert, mapKeys]
  | cons q rest ih =>
    obtain ⟨k1, v1⟩ := q
    rw [mapKeys_cons] at hnd
    have hnd1 : k1 ∉ mapKeys rest := (List.nodup_cons.mp hnd).1
    have hnd2 : (mapKeys rest).Nodup := (List.nodup_cons.mp hnd).2
    by_cases h1 : k1 = k
    · subst h1
      simp only [mapInsert, beq_self_eq_true, if_true]
      rw [mapKeys_cons]
      exact List.nodup_cons.mpr ⟨hnd1, hnd2⟩
    · simp only [mapInsert, beq_iff_eq, h1, if_false]
      rw [mapKeys_cons]
      refine List.nodup_cons.mpr ⟨?_, ih hnd2⟩
      intro hmem
      rcases mapKeys_insert rest k k1 v hmem with h2 | h2
      · exact h1 h2
      · exact hnd1 h2

theorem nodup_mapKeys_erase (m : List (κ × α)) (k : κ)
    (hnd : (mapKeys m).Nodup) : (mapKeys (mapErase m k)).Nodup := by
  induction m with
  | nil => simp [mapErase, mapKeys]
  | cons q rest ih =>
    obtain ⟨k1, v1⟩ := q
    rw [mapKeys_cons] at hnd
    have hnd1 : k1 ∉ mapKeys rest := (List.nodup_cons.mp hnd).1
    have hnd2 : (mapKeys rest).Nodup := (List.nodup_cons.mp hnd).2
    by_cases h1 : k1 = k
    · subst h1
      simp only [mapErase, beq_self_eq_true, if_true]
      exact hnd2
    · simp only [mapErase, beq_iff_eq, h1, if_false]
      rw [mapKeys_cons]
      refine List.nodup_cons.mpr ⟨?_, ih hnd2⟩
      intro hmem
      exact hnd1 (mapKeys_erase_subset rest k k1 hmem)

end AssocMapMore

/-- `getChannelData` coincides with a defaulted lookup: an absent channel
yields the empty record either way. -/
theorem getChannelData_eq (t : Table) (ch : Nat) :
    getChannelData t ch = mapGetD t ch [] := by
  unfold getChannelData mapContains mapGetD
  cases hf : mapFind? t ch <;> simp [hf]

/-- Keys not occurring in the frame keep their lookup through the merge. -/
theorem mergeFrame_find?_not_mem (f : Frame) : ∀ (r : Frame) (k : String),
    k ∉ mapKeys f → mapFind? (mergeFrame r f) k = mapFind? r k := by
  induction f with
  | nil => intro r k _; rfl
  | cons kv rest ih =>
    intro r k hk
    rw [mapKeys_cons, List.mem_cons] at hk
    push_neg at hk
    show mapFind? (mergeFrame (mapInsert r kv.1 kv.2) rest) k = mapFind? r k
    rw [ih _ k hk.2, mapFind?_insert_ne _ _ _ _ hk.1]

/-- Any key of the merged record comes from the old record or the frame. -/
theorem mapKeys_mergeFrame (f : Frame) : ∀ (r : Frame) (k : String),
    k ∈ mapKeys (mergeFrame r f) → k ∈ mapKeys r ∨ k ∈ mapKeys f := by
  induction f with
  | nil => intro r k hk; exact Or.inl hk
  | cons kv rest ih =>
    intro r k hk
    have hk2 : k ∈ mapKeys (mergeFrame (mapInsert r kv.1 kv.2) rest) := hk
    rcases ih _ k hk2 with h1 | h1
    · rcases mapKeys_insert r kv.1 k kv.2 h1 with h2 | h2
      · exact Or.inr (by rw [mapKeys_cons]; exact h2 ▸ List.mem_cons_self _ _)
      · exact Or.inl h2
    · exact Or.inr (by rw [mapKeys_cons]; exact List.mem_cons_of_mem _ h1)

/-- `receiveM4Data` leaves every other channel's entry untouched. -/
theorem receiveM4Data_find?_ne (t : Table) (ch2 : Nat) (f : Frame) (ch : Nat)
    (hne : ch ≠ ch2) :
    mapFind? (receiveM4Data t ch2 f).1 ch = mapFind? t ch := by
  unfold receiveM4Data
  by_cases hc : (mapContains f "voltage" && mapContains f "timestamp") = true <;>
    by_cases he : f.isEmpty <;>
      simp [hc, he, mapFind?_insert_ne _ _ _ _ hne]

/-- The record written for the target channel by `receiveM4Data`. -/
theorem receiveM4Data_record (t : Table) (ch : Nat) (f : Frame) :
    getChannelData (receiveM4Data t ch f).1 ch =
      if mapContains f "voltage" && mapContains f "timestamp" then
        mapInsert
          (if f.isEmpty then getChannelData t ch
           else mergeFrame (getChannelData t ch) f) "dvdt" (1/1000)
      else
        (if f.isEmpty then getChannelData t ch
         else mergeFrame (getChannelData t ch) f) := by
  unfold receiveM4Data
  rw [getChannelData_eq, getChannelData_eq]
  by_cases hc : (mapContains f "voltage" && mapContains f "timestamp") = true <;>
    by_cases he : f.isEmpty <;>
      simp [hc, he, getChannelData_eq, mapGetD_insert_self]

/-- The state component of a getter: the table is unchanged unless the
channel record exists and lacks the queried key, in which case that key is
inserted with value `0`. -/
theorem getMetric_fst_cases (t : Table) (ch : Nat) (key : String) :
    (getMetric t ch key).1 =
      if mapContains t ch = true ∧ mapFind? (mapGetD t ch []) key = none then
        mapInsert t ch (mapInsert (mapGetD t ch []) key 0)
      else t := by
  simp only [getMetric]
  by_cases hc : mapContains t ch = true
  · rw [if_pos hc]
    cases hf : mapFind? (mapGetD t ch []) key with
    | some v =>
      rw [if_neg (by simp)]
    | none =>
      rw [if_pos ⟨hc, rfl⟩]
  · rw [if_neg hc, if_neg (by simp [hc])]

/-- A getter leaves every other channel's entry untouched. -/
theorem getMetric_find?_ne (t : Table) (ch0 : Nat) (key : String) (ch : Nat)
    (hne : ch ≠ ch0) :
    mapFind? (getMetric t ch0 key).1 ch = mapFind? t ch := by
  rw [getMetric_fst_cases]
  by_cases hcond : mapContains t ch0 = true ∧ mapFind? (mapGetD t ch0 []) key = none
  · rw [if_pos hcond, mapFind?_insert_ne _ _ _ _ hne]
  · rw [if_neg hcond]

/-- A getter can only add its queried key to the target channel's record. -/
theorem getMetric_keys (t : Table) (ch0 : Nat) (key : String) (ch : Nat) (k : String)
    (hk : k ∈ mapKeys (getChannelData (getMetric t ch0 key).1 ch)) :
    k ∈ mapKeys (getChannelData t ch) ∨ k = key := by
  rw [getMetric_fst_cases] at hk
  by_cases hcond : mapContains t ch0 = true ∧ mapFind? (mapGetD t ch0 []) key = none
  · rw [if_pos hcond] at hk
    by_cases hne : ch = ch0
    · subst hne
      rw [getChannelData_eq, mapGetD_insert_self] at hk
      rcases mapKeys_insert _ key k 0 hk with h1 | h1
      · exact Or.inr h1
      · exact Or.inl (by rw [getChannelData_eq]; exact h1)
    · rw [getChannelData_eq, mapGetD, mapFind?_insert_ne _ _ _ _ hne] at hk
      rw [getChannelData_eq, mapGetD]
      exact Or.inl hk
  · rw [if_neg hcond] at hk
    exact Or.inl hk

/-! ### Callback registry invariant lemmas -/

/-- The find-result of `registerCallback` at the registered channel. -/
theorem registerCallback_find?_self {α : Type} (m : CbMap α) (ch : Nat) (cb : α) :
    mapFind? (registerCallback m ch cb) ch =
      some (mapGetD m ch [] ++ [cb]) := by
  unfold registerCallback
  by_cases hc : mapContains m ch = true
  · rw [if_pos hc, mapFind?_insert_self]
  · rw [if_neg hc, mapFind?_insert_self, mapGetD_insert_self,
      mapGetD_eq_nil_of_not_contains (by simpa using hc)]

/-- The registry invariant: channel keys are unique, and every present
channel entry holds a non-empty callback vector. -/
def cbInvariant {α : Type} (m : CbMap α) : Prop :=
  (mapKeys m).Nodup ∧ ∀ p ∈ m, p.2 ≠ []

theorem cbInvariant_register {α : Type} (m : CbMap α) (ch : Nat) (cb : α)
    (hinv : cbInvariant m) : cbInvariant (registerCallback m ch cb) := by
  obtain ⟨hnd, hval⟩ := hinv
  unfold registerCallback
  by_cases hc : mapContains m ch = true
  · rw [if_pos hc]
    refine ⟨nodup_mapKeys_insert _ _ _ hnd, ?_⟩
    intro p hp
    rcases mem_mapInsert_nodup _ _ _ p hnd hp with h1 | h1
    · subst h1; simp
    · exact hval p h1.1
  · rw [if_neg hc]
    have hnd1 : (mapKeys (mapInsert m ch ([] : List α))).Nodup :=
      nodup_mapKeys_insert _ _ _ hnd
    refine ⟨nodup_mapKeys_insert _ _ _ hnd1, ?_⟩
    intro p hp
    rcases mem_mapInsert_nodup _ _ _ p hnd1 hp with h1 | h1
    · subst h1; simp
    · rcases mem_mapInsert _ _ _ p h1.1 with h2 | h2
      · exact absurd (by rw [h2]) h1.2
      · exact hval p h2

theorem cbInvariant_unregister {α : Type} (m : CbMap α) (ch : Nat) (idx : Int)
    (hinv : cbInvariant m) : cbInvariant (unregisterCallback m ch idx) := by
  obtain ⟨hnd, hval⟩ := hinv
  unfold unregisterCallback
  cases hf : mapFind? m ch with
  | none => exact ⟨hnd, hval⟩
  | some l =>
    show cbInvariant
      (if idx < 0 then mapErase m ch
       else if idx < (l.length : Int) then
         (if (l.eraseIdx idx.toNat).isEmpty = true then mapErase m ch
          else mapInsert m ch (l.eraseIdx idx.toNat))
       else m)
    by_cases hneg : idx < 0
    · rw [if_pos hneg]
      exact ⟨nodup_mapKeys_erase _ _ hnd, fun p hp => hval p (mem_mapErase _ _ p hp)⟩
    · rw [if_neg hneg]
      by_cases hlt : idx < (l.length : Int)
      · rw [if_pos hlt]
        by_cases hemp : (l.eraseIdx idx.toNat).isEmpty = true
        · rw [if_pos hemp]
          exact ⟨nodup_mapKeys_erase _ _ hnd,
            fun p hp => hval p (mem_mapErase _ _ p hp)⟩
        · rw [if_neg hemp]
          refine ⟨nodup_mapKeys_insert _ _ _ hnd, ?_⟩
          intro p hp
          rcases mem_mapInsert _ _ _ p hp with h1 | h1
          · subst h1
            simpa using hemp
          · exact hval p h1
      · rw [if_neg hlt]
        exact ⟨hnd, hval⟩

theorem cbInvariant_runCbOps {α : Type} (ops : List (CbOp α)) :
    cbInvariant (runCbOps ops) := by
  have H : ∀ (ops2 : List (CbOp α)) (m : CbMap α), cbInvariant m →
      cbInvariant (ops2.foldl applyCbOp m) := by
    intro ops2
    induction ops2 with
    | nil => intro m hm; exact hm
    | cons op rest ih =>
      intro m hm
      refine ih _ ?_
      cases op with
      | register ch cb => exact cbInvariant_register m ch cb hm
      | unregister ch idx => exact cbInvariant_unregister m ch idx hm
  exact H ops [] ⟨List.nodup_nil, fun p hp => absurd hp (List.not_mem_nil p)⟩

/-! ### Ingest counting lemmas -/

theorem countCallbackEval_base {α : Type} (ch : Nat) (f : Frame) :
    countCallbackEval ([IngestTask.filtering ch f, IngestTask.fitting ch f] : List (IngestTask α)) = 0 := by
  simp [countCallbackEval]

theorem countCallbackEval_handleCallbacks {α : Type} (m : CbMap α) (ch : Nat) :
    countCallbackEval (handleCallbacks m ch) = ((mapFind? m ch).getD []).length := by
  unfold handleCallbacks
  cases hf : mapFind? m ch with
  | none => simp [countCallbackEval]
  | some l =>
    show countCallbackEval
        (if l.isEmpty = true then []
         else l.map (fun cb => IngestTask.callbackEval ch cb)) =
      ((some l).getD []).length
    by_cases hemp : l.isEmpty = true
    · rw [if_pos hemp]
      simp only [Option.getD_some]
      rw [List.isEmpty_iff] at hemp
      subst hemp
      simp [countCallbackEval]
    · rw [if_neg hemp]
      simp only [Option.getD_some, countCallbackEval, List.countP_map]
      exact List.countP_eq_length.mpr (fun x _ => rfl)

/-! ### Update-flag and derived-metric lemmas -/

theorem not_mem_keys_of_not_contains {κ α : Type} [DecidableEq κ]
    {m : List (κ × α)} {k : κ} (h : mapContains m k = false) :
    k ∉ mapKeys m := by
  intro hmem
  obtain ⟨p, hp, hpk⟩ := List.mem_map.mp hmem
  unfold mapContains mapFind? at h
  cases hf : m.find? (fun q => q.1 == k) with
  | some q => rw [hf] at h; cases h
  | none =>
    have := List.find?_eq_none.mp hf p hp
    simp [hpk] at this

/-- The boolean returned by `receiveM4Data` records only that the frame was
non-empty, not that any stored value changed. -/
theorem receiveM4Data_snd_iff (t : Table) (ch : Nat) (f : Frame) :
    (receiveM4Data t ch f).2 = true ↔ f ≠ [] := by
  simp only [receiveM4Data]
  by_cases hc : (mapContains f "voltage" && mapContains f "timestamp") = true
  · rw [if_pos hc]
    constructor
    · intro _ hemp
      subst hemp
      simp [mapContains, mapFind?] at hc
    · intro _
      rfl
  · rw [if_neg hc]
    show (!f.isEmpty) = true ↔ f ≠ []
    simp [List.isEmpty_iff]

/-- The `dvdt` entry after an update, for frames that do not themselves carry
a `dvdt` key: the constant `0.001` when the frame holds both `voltage` and
`timestamp`, the previous entry otherwise. -/
theorem receiveM4Data_dvdt (t : Table) (ch : Nat) (f : Frame)
    (hnd : mapContains f "dvdt" = false) :
    mapFind? (getChannelData (receiveM4Data t ch f).1 ch) "dvdt" =
      (if mapContains f "voltage" && mapContains f "timestamp" then some (1/1000)
       else mapFind? (getChannelData t ch) "dvdt") := by
  rw [receiveM4Data_record]
  by_cases hc : (mapContains f "voltage" && mapContains f "timestamp") = true
  · rw [if_pos hc, if_pos hc]
    exact mapFind?_insert_self _ _ _
  · rw [if_neg hc, if_neg hc]
    by_cases he : f.isEmpty = true
    · rw [if_pos he]
    · rw [if_neg he]
      exact mergeFrame_find?_not_mem f _ _ (not_mem_keys_of_not_contains hnd)

/-! ### Snapshot-key induction (table operation sequences) -/

/-- The keys the typed getters may create. -/
def getterKeys : List String := ["voltage", "current", "dvdt"]

theorem writtenKeys_cons (ch : Nat) (op : TableOp) (rest : List TableOp) :
    writtenKeys ch (op :: rest) = updateWrites ch op ++ writtenKeys ch rest := rfl

theorem tableOp_keys_step (s : Table × SubMap) (op : TableOp) (ch : Nat) (k : String)
    (hk : k ∈ mapKeys (getChannelData (applyTableOp s op).1 ch)) :
    k ∈ mapKeys (getChannelData s.1 ch) ∨ k ∈ updateWrites ch op ∨ k ∈ getterKeys := by
  cases op with
  | update ch2 f =>
    by_cases hch : ch2 = ch
    · subst hch
      have hk2 : k ∈ mapKeys (getChannelData (receiveM4Data s.1 ch2 f).1 ch2) := hk
      rw [receiveM4Data_record] at hk2
      have hmerge : k ∈ mapKeys
          (if f.isEmpty then getChannelData s.1 ch2
           else mergeFrame (getChannelData s.1 ch2) f) →
          k ∈ mapKeys (getChannelData s.1 ch2) ∨ k ∈ mapKeys f := by
        intro hkm
        by_cases he : f.isEmpty = true
        · rw [if_pos he] at hkm
          exact Or.inl hkm
        · rw [if_neg he] at hkm
          exact mapKeys_mergeFrame f _ k hkm
      by_cases hc : (mapContains f "voltage" && mapContains f "timestamp") = true
      · rw [if_pos hc] at hk2
        rcases mapKeys_insert _ "dvdt" k (1/1000) hk2 with h1 | h1
        · refine Or.inr (Or.inl ?_)
          simp only [updateWrites, if_pos rfl, hc, if_true]
          exact List.mem_append.mpr (Or.inr (by simp [h1]))
        · rcases hmerge h1 with h2 | h2
          · exact Or.inl h2
          · refine Or.inr (Or.inl ?_)
            simp only [updateWrites, if_pos rfl]
            exact List.mem_append.mpr (Or.inl h2)
      · rw [if_neg hc] at hk2
        rcases hmerge hk2 with h2 | h2
        · exact Or.inl h2
        · refine Or.inr (Or.inl ?_)
          simp only [updateWrites, if_pos rfl]
          exact List.mem_append.mpr (Or.inl h2)
    · have hk2 : k ∈ mapKeys (getChannelData (receiveM4Data s.1 ch2 f).1 ch) := hk
      rw [getChannelData_eq, mapGetD,
        receiveM4Data_find?_ne s.1 ch2 f ch (fun h => hch h.symm)] at hk2
      rw [getChannelData_eq, mapGetD]
      exact Or.inl hk2
  | getV ch2 =>
    rcases getMetric_keys s.1 ch2 "voltage" ch k hk with h1 | h1
    · exact Or.inl h1
    · exact Or.inr (Or.inr (by simp [getterKeys, h1]))
  | getC ch2 =>
    rcases getMetric_keys s.1 ch2 "current" ch k hk with h1 | h1
    · exact Or.inl h1
    · exact Or.inr (Or.inr (by simp [getterKeys, h1]))
  | getDv ch2 =>
    rcases getMetric_keys s.1 ch2 "dvdt" ch k hk with h1 | h1
    · exact Or.inl h1
    · exact Or.inr (Or.inr (by simp [getterKeys, h1]))
  | subscribe ch2 => exact Or.inl hk
  | unsubscribe ch2 => exact Or.inl hk

theorem runTableOps_keys_aux : ∀ (ops : List TableOp) (s : Table × SubMap)
    (ch : Nat) (k : String),
    k ∈ mapKeys (getChannelData (ops.foldl applyTableOp s).1 ch) →
    k ∈ mapKeys (getChannelData s.1 ch) ∨ k ∈ writtenKeys ch ops ∨ k ∈ getterKeys := by
  intro ops
  induction ops with
  | nil => intro s ch k hk; exact Or.inl hk
  | cons op rest ih =>
    intro s ch k hk
    rcases ih (applyTableOp s op) ch k hk with h1 | h1 | h1
    · rcases tableOp_keys_step s op ch k h1 with h2 | h2 | h2
      · exact Or.inl h2
      · refine Or.inr (Or.inl ?_)
        rw [writtenKeys_cons]
        exact List.mem_append.mpr (Or.inl h2)
      · exact Or.inr (Or.inr h2)
    · refine Or.inr (Or.inl ?_)
      rw [writtenKeys_cons]
      exact List.mem_append.mpr (Or.inr h1)
    · exact Or.inr (Or.inr h1)

/-! ## Claim theorems -/

/-- C1, counterexample: when the CV-transition callback fires (the snapshot
holds `voltage >= target`), the `ConstantVoltage` task it enqueues carries
priority `NORMAL`, not `HIGH` as claimed: `CVTask`'s constructor
(`Task.h:182-183`) hard-codes `ControlTask(TaskPriority::NORMAL)`. -/
theorem cv_priority_counterexample :
    CbAction.addTask (CtrlTask.cvTask 1 4) ∈
      evalCallback 1 (CCCVCallback.transition 4) [("voltage", 4)] ∧
    CtrlTask.priority (CtrlTask.cvTask 1 4) ≠ TaskPriority.HIGH := by
  decide

/-- C1, amended: every task enqueued by the CV-transition callback carries
priority `NORMAL`. -/
theorem cv_priority_amended (ch : Nat) (vt : ℚ) (data : Frame) (t : CtrlTask)
    (h : CbAction.addTask t ∈ evalCallback ch (CCCVCallback.transition vt) data) :
    t.priority = TaskPriority.NORMAL := by
  simp only [evalCallback] at h
  by_cases hc : (mapContains data "voltage" &&
      decide (mapGetD data "voltage" 0 ≥ vt)) = true
  · rw [if_pos hc] at h
    simp at h
    subst h
    rfl
  · rw [if_neg hc] at h
    exact absurd h (List.not_mem_nil _)

/-- C1, witness for the amended theorem at a concrete firing snapshot. -/
theorem cv_priority_amended_witness :
    CtrlTask.priority (CtrlTask.cvTask 1 4) = TaskPriority.NORMAL :=
  cv_priority_amended 1 4 [("voltage", 4)] (CtrlTask.cvTask 1 4) (by decide)

/-- C2, counterexample: three equal-priority tasks submitted in order
`0, 1, 2` are removed in order `0, 2, 1` — task `1` was submitted before
task `2` but is removed after it, so FIFO order within a priority class
fails once other tasks share the queue. -/
theorem fifo_counterexample :
    (drainQ 3 (runQOps [QOp.push .NORMAL 0, QOp.push .NORMAL 1,
        QOp.push .NORMAL 2])).map QTask.tid = [0, 2, 1] ∧
      ((drainQ 3 (runQOps [QOp.push .NORMAL 0, QOp.push .NORMAL 1,
        QOp.push .NORMAL 2])).map QTask.tid).indexOf 2 <
      ((drainQ 3 (runQOps [QOp.push .NORMAL 0, QOp.push .NORMAL 1,
        QOp.push .NORMAL 2])).map QTask.tid).indexOf 1 := by
  decide

/-- C2, amended: when the two equal-priority tasks are alone in the queue,
the earlier-submitted one is removed first. -/
theorem fifo_amended_two_tasks (a b : QTask) (h : a.prio = b.prio) :
    popQ (pushQ (pushQ [] a) b) = some (a, [b]) := by
  have hcmp : taskComparator a b = false := by
    simp [taskComparator, h]
  have h1 : pushQ [] a = [a] := rfl
  have h2a : pushQ [a] b = siftUpF 1 [a, b] 1 := rfl
  have h2b : siftUpF 1 [a, b] 1 =
      (if taskComparator a b then siftUpF 0 (swapL [a, b] 0 1) 0 else [a, b]) := rfl
  have h3 : popQ [a, b] = some (a, [b]) := rfl
  rw [h1, h2a, h2b, hcmp]
  simp only [Bool.false_eq_true, if_false]
  exact h3

/-- C2, witness for the amended theorem on two NORMAL tasks. -/
theorem fifo_amended_two_tasks_witness :
    popQ (pushQ (pushQ [] ⟨TaskPriority.NORMAL, 0⟩) ⟨TaskPriority.NORMAL, 1⟩) =
      some (⟨TaskPriority.NORMAL, 0⟩, [⟨TaskPriority.NORMAL, 1⟩]) :=
  fifo_amended_two_tasks ⟨TaskPriority.NORMAL, 0⟩ ⟨TaskPriority.NORMAL, 1⟩ rfl

/-- C3: whenever a worker removes a task from a queue reached by any
sequence of submissions and removals from the empty queue, no task remaining
in the queue has strictly higher priority (HIGH before NORMAL before LOW)
than the removed one. -/
theorem dequeue_maximal_priority (ops : List QOp) (t : QTask)
    (rest : List QTask) (hpop : popQ (runQOps ops) = some (t, rest)) :
    ∀ u ∈ rest, ¬ strictlyHigherPriority u.prio t.prio := by
  intro u hu
  have hv := isHeap_runQOps ops
  obtain ⟨h0, _⟩ := popQ_some_elim _ _ _ hpop
  have humem : u ∈ runQOps ops := mem_popQ_rest _ _ _ hpop u hu
  obtain ⟨i, hi⟩ := List.mem_iff_getElem?.mp humem
  have hle := isHeap_root_le _ hv t h0 i u hi
  unfold strictlyHigherPriority
  omega

/-- C3, witness: after pushing a HIGH and a LOW task, the dequeue removes the
HIGH task and the remaining LOW task does not out-rank it. -/
theorem dequeue_maximal_priority_witness :
    ¬ strictlyHigherPriority TaskPriority.LOW TaskPriority.HIGH :=
  dequeue_maximal_priority [QOp.push .HIGH 0, QOp.push .LOW 1]
    ⟨TaskPriority.HIGH, 0⟩ [⟨TaskPriority.LOW, 1⟩] (by decide)
    ⟨TaskPriority.LOW, 1⟩ (by decide)

/-- C4: one ingest iteration updates the channel's table record exactly as
`receiveM4Data` does regardless of subscription, and materialises one
`CallbackControlTask` per registered callback when the channel is subscribed
and none otherwise — even if callbacks are registered. -/
theorem ingest_subscription_gating {α : Type} (t : Table) (subs : SubMap)
    (m : CbMap α) (ch : Nat) (f : Frame) :
    (ingestChannel t subs m ch f).1 = (receiveM4Data t ch f).1 ∧
      countCallbackEval (ingestChannel t subs m ch f).2 =
        (if isChannelSubscribed subs ch then ((mapFind? m ch).getD []).length
         else 0) := by
  simp only [ingestChannel]
  by_cases hs : isChannelSubscribed subs ch = true
  · rw [if_pos hs]
    refine ⟨rfl, ?_⟩
    rw [if_pos hs]
    show countCallbackEval
      ([IngestTask.filtering ch f, IngestTask.fitting ch f] ++ handleCallbacks m ch) = _
    have hbase := countCallbackEval_base (α := α) ch f
    have hhc := countCallbackEval_handleCallbacks m ch
    unfold countCallbackEval at hbase hhc ⊢
    rw [List.countP_append, hbase, Nat.zero_add, hhc]
  · rw [if_neg hs]
    refine ⟨rfl, ?_⟩
    rw [if_neg hs]
    exact countCallbackEval_base ch f

/-- C5, counterexample: with prior values `voltage = 1`, `timestamp = 2` and
an incoming frame `voltage = 5`, `timestamp = 10`, the update stores
`dvdt = 0.001` (the hard-coded dummy at `ChannelService.h:339`), not the
difference quotient `(5 - 1)/(10 - 2) = 1/2` the claim specifies. -/
theorem dvdt_counterexample :
    mapFind? (getChannelData (receiveM4Data
        (receiveM4Data [] 1 [("voltage", 1), ("timestamp", 2)]).1 1
        [("voltage", 5), ("timestamp", 10)]).1 1) "dvdt" = some (1/1000) ∧
    ((1 : ℚ)/1000) ≠ (5 - 1) / (10 - 2) := by
  constructor
  · rw [receiveM4Data_dvdt _ _ _ (by decide), if_pos (by decide)]
  · norm_num

/-- C5, amended: for frames that do not themselves carry a `dvdt` key, the
update sets `dvdt` to the constant `0.001` whenever the frame holds both
`voltage` and `timestamp` keys (prior values are not consulted), and leaves
`dvdt` unchanged otherwise. -/
theorem dvdt_amended (t : Table) (ch : Nat) (f : Frame)
    (hnd : mapContains f "dvdt" = false) :
    mapFind? (getChannelData (receiveM4Data t ch f).1 ch) "dvdt" =
      (if mapContains f "voltage" && mapContains f "timestamp" then some (1/1000)
       else mapFind? (getChannelData t ch) "dvdt") :=
  receiveM4Data_dvdt t ch f hnd

/-- C5, witness for the amended theorem at a concrete frame. -/
theorem dvdt_amended_witness :
    mapFind? (getChannelData (receiveM4Data [] 0
        [("voltage", 1), ("timestamp", 2)]).1 0) "dvdt" =
      (if mapContains [(("voltage" : String), (1 : ℚ)), ("timestamp", 2)] "voltage" &&
          mapContains [(("voltage" : String), (1 : ℚ)), ("timestamp", 2)] "timestamp" then
        some (1/1000)
       else mapFind? (getChannelData ([] : Table) 0) "dvdt") :=
  dvdt_amended [] 0 [("voltage", 1), ("timestamp", 2)] (by decide)

/-- C6, counterexample: applying the identical one-entry frame a second
time changes nothing in the record, yet `receiveM4Data` still returns
`true` — `updated` is set on every loop iteration, not on value change. -/
theorem update_flag_counterexample :
    (receiveM4Data (receiveM4Data [] 1 [("voltage", 1)]).1 1
        [("voltage", 1)]).2 = true ∧
    (receiveM4Data (receiveM4Data [] 1 [("voltage", 1)]).1 1
        [("voltage", 1)]).1 = (receiveM4Data [] 1 [("voltage", 1)]).1 := by
  decide

/-- C6, amended: `receiveM4Data` returns `true` exactly when the incoming
frame is non-empty, regardless of whether any stored value changed. -/
theorem update_flag_amended (t : Table) (ch : Nat) (f : Frame) :
    (receiveM4Data t ch f).2 = true ↔ f ≠ [] :=
  receiveM4Data_snd_iff t ch f

/-- C7: `isLimitReached` returns true exactly when some limit's metric is
present in the snapshot with value at least the threshold; in particular it
returns false on the empty limit list. -/
theorem isLimitReached_spec (d : Frame) (L : List StepLimit) :
    (isLimitReached d L = true ↔
      ∃ lim ∈ L, ∃ v, mapFind? d lim.var_type = some v ∧ lim.target_value ≤ v) ∧
    isLimitReached d [] = false := by
  refine ⟨?_, rfl⟩
  unfold isLimitReached
  rw [List.any_eq_true]
  constructor
  · rintro ⟨lim, hmem, hlim⟩
    refine ⟨lim, hmem, ?_⟩
    cases hf : mapFind? d lim.var_type with
    | none =>
      rw [hf] at hlim
      simp at hlim
    | some v =>
      rw [hf] at hlim
      exact ⟨v, rfl, by simpa [ge_iff_le] using of_decide_eq_true hlim⟩
  · rintro ⟨lim, hmem, v, hf, hge⟩
    refine ⟨lim, hmem, ?_⟩
    rw [hf]
    simpa [ge_iff_le] using hge

/-- C8, counterexample: the invalid channel id `MAX_CHAN_NUM = 32` is not
refused — neither `subscribeChannel` nor `runCCCV` validates the channel:
the subscription is recorded and the CC task enqueued. -/
theorem channel_validation_counterexample :
    isChannelSubscribed (subscribeChannel [] MAX_CHAN_NUM) MAX_CHAN_NUM = true ∧
    (runCCCV ⟨[], [], []⟩ MAX_CHAN_NUM 2 4 []).queue =
      [CtrlTask.ccTask MAX_CHAN_NUM 2] := by
  decide

/-- C8, amended: `runCCCV` performs no channel-id validation: for every
channel (including `MAX_CHAN_NUM`) it records the subscription, appends the
CC task to the submission sequence, and registers the transition and limit
callbacks. -/
theorem channel_validation_amended (st : SvcState) (ch : Nat) (cur vt : ℚ)
    (L : List StepLimit) :
    isChannelSubscribed (runCCCV st ch cur vt L).subs ch = true ∧
    (runCCCV st ch cur vt L).queue = st.queue ++ [CtrlTask.ccTask ch cur] ∧
    mapFind? (runCCCV st ch cur vt L).callbackMap ch =
      some (mapGetD st.callbackMap ch [] ++
        [CCCVCallback.transition vt, CCCVCallback.limitCheck L]) := by
  refine ⟨?_, rfl, ?_⟩
  · show isChannelSubscribed (subscribeChannel st.subs ch) ch = true
    unfold isChannelSubscribed subscribeChannel
    rw [mapGetD_insert_self]
  · show mapFind? (registerCallback (registerCallback st.callbackMap ch
        (CCCVCallback.transition vt)) ch (CCCVCallback.limitCheck L)) ch = _
    rw [registerCallback_find?_self, mapGetD, registerCallback_find?_self]
    simp

/-- C9, counterexample: after updating channel 0 with the single key
`current`, calling `getVoltage` inserts the key `voltage` (value `0.0`) into
the record via the inner `operator[]`, so the snapshot's keys are no longer
a subset of the keys ever written by updates. -/
theorem snapshot_keys_counterexample :
    "voltage" ∈ mapKeys (getChannelData
      (getVoltage (receiveM4Data [] 0 [("current", 1)]).1 0).1 0) ∧
    "voltage" ∉ writtenKeys 0 [TableOp.update 0 [("current", 1)], TableOp.getV 0] := by
  decide

/-- C9, amended: over every sequence of table operations, the keys of a
channel's snapshot are a subset of the keys written by updates for that
channel together with the getter-inserted keys `voltage`, `current`,
`dvdt`. -/
theorem snapshot_keys_amended (ops : List TableOp) (ch : Nat) (k : String)
    (hk : k ∈ mapKeys (getChannelData (runTableOps ops).1 ch)) :
    k ∈ writtenKeys ch ops ∨ k ∈ getterKeys := by
  rcases runTableOps_keys_aux ops ([], []) ch k hk with h1 | h1 | h1
  · exact absurd h1 (List.not_mem_nil k)
  · exact Or.inl h1
  · exact Or.inr h1

/-- C9, witness for the amended theorem on a single-update run. -/
theorem snapshot_keys_amended_witness :
    "current" ∈ writtenKeys 0 [TableOp.update 0 [("current", 1)]] ∨
      "current" ∈ getterKeys :=
  snapshot_keys_amended [TableOp.update 0 [("current", 1)]] 0 "current" (by decide)

/-- C10: every channel present in the callback map after any sequence of
register/unregister operations holds a non-empty callback vector:
registration creates the entry only together with its first callback, and
unregistration erases the entry whenever the last callback is removed. -/
theorem callback_entries_nonempty {α : Type} (ops : List (CbOp α)) (ch : Nat)
    (l : List α) (h : mapFind? (runCbOps ops) ch = some l) : l ≠ [] := by
  obtain ⟨_, hval⟩ := cbInvariant_runCbOps ops
  exact hval _ (mapFind?_mem _ _ _ h)

/-- C10, witness: a single registration yields the non-empty vector `[7]`. -/
theorem callback_entries_nonempty_witness : ([7] : List Nat) ≠ [] :=
  callback_entries_nonempty [CbOp.register 1 7] 1 [7] (by decide)

end ChannelManager
